import Mathlib

/-!
Shallow embedding of the AnkiMorphs Recalc engine (`ankimorphs/recalc.py`)
and proofs about it.

Conventions of the embedding:
* Python `dict[K, V]` lookups are modelled as functions `K → Option V`;
  a `none` result at a point where the Python code would index the dict
  models an uncaught `KeyError`.
* Functions whose Python counterpart can raise an exception that propagates
  return `Option`; `none` is the propagated exception.
* Python lists are Lean `List`s; `list.sort` / `sorted` (which are stable)
  are modelled by a stable insertion sort (`foldl` insertion).
* Mutable state (the ankimorphs db tables, the card queue) is passed
  explicitly.
-/

namespace AnkiMorphs

/-- The slice of `AnkiMorphsConfig` that the Recalc engine reads. -/
structure AmConfig where
  skip_stale_cards : Bool
  recalc_prioritize_collection : Bool
  recalc_interval_for_known : Nat
  tag_known : String
  tag_ready : String
  tag_not_ready : String
deriving DecidableEq

/-! ## Cache tables and their lookup structures -/

/-- A row of the `Morphs` table as read by `get_morph_cache`:
`SELECT norm, inflected, highest_learning_interval FROM Morphs`. -/
structure MorphRow where
  norm : String
  inflected : String
  highest_learning_interval : Nat
deriving DecidableEq

/-- A row of the `Card_Morph_Map` table:
`SELECT card_id, morph_norm, morph_inflected FROM Card_Morph_Map`. -/
structure CardMorphRow where
  card_id : Nat
  morph_norm : String
  morph_inflected : String
deriving DecidableEq

/-- The per-card morph dict built by `get_card_morph_map_cache`:
`{"entire_morph": norm + inflected, "inflected_morph": inflected}`. -/
structure MorphEntry where
  entire_morph : String
  inflected_morph : String
deriving DecidableEq

/-- `get_morph_cache`: builds `dict[str, int]` keyed by `row[0] + row[1]`
(norm concatenated with inflected); later rows overwrite earlier ones,
exactly like repeated Python dict assignment. -/
def get_morph_cache (rows : List MorphRow) : String → Option Nat :=
  rows.foldl
    (fun m r => fun k =>
      if k = r.norm ++ r.inflected then some r.highest_learning_interval else m k)
    (fun _ => none)

/-- One Python-dict assignment `m[k] = v` on a `Nat`-keyed dict. -/
def dictSet (m : Nat → Option (List MorphEntry)) (k : Nat) (v : List MorphEntry) :
    Nat → Option (List MorphEntry) :=
  fun k' => if k' = k then some v else m k'

/-- The loop body state machine of `get_card_morph_map_cache`: `outer` is
`card_id_outer`.  When the row's card id differs from `outer` the list is
(re)started with a single entry, otherwise the entry is appended. -/
def get_card_morph_map_cache_go :
    List CardMorphRow → Option Nat → (Nat → Option (List MorphEntry)) →
    (Nat → Option (List MorphEntry))
  | [], _, m => m
  | r :: rs, outer, m =>
    let entry : MorphEntry := ⟨r.morph_norm ++ r.morph_inflected, r.morph_inflected⟩
    if some r.card_id ≠ outer then
      get_card_morph_map_cache_go rs (some r.card_id) (dictSet m r.card_id [entry])
    else
      get_card_morph_map_cache_go rs outer
        (dictSet m r.card_id ((m r.card_id).getD [] ++ [entry]))

/-- `get_card_morph_map_cache`: groups the `Card_Morph_Map` rows by card id
(relying on consecutive grouping, tracked through `card_id_outer`). -/
def get_card_morph_map_cache (rows : List CardMorphRow) :
    Nat → Option (List MorphEntry) :=
  get_card_morph_map_cache_go rows none (fun _ => none)

/-! ## Priority ranker -/

/-- `Counter(temp_list)` over the concatenated keys: counts kept in
first-seen key order (Python dicts preserve insertion order). -/
def counterBump (acc : List (String × Nat)) (k : String) : List (String × Nat) :=
  if acc.any (fun p => p.1 = k) then
    acc.map (fun p => if p.1 = k then (p.1, p.2 + 1) else p)
  else
    acc ++ [(k, 1)]

/-- Stable insertion (descending by count) used to model
`sorted(items, key=lambda item: item[1], reverse=True)`. -/
def insertByCountDesc (x : String × Nat) : List (String × Nat) → List (String × Nat)
  | [] => [x]
  | y :: ys => if x.2 ≤ y.2 then y :: insertByCountDesc x ys else x :: y :: ys

/-- Stable descending sort by count (`sorted(..., reverse=True)`). -/
def sortByCountDesc (l : List (String × Nat)) : List (String × Nat) :=
  l.foldl (fun acc x => insertByCountDesc x acc) []

/-- Index of the first pair with the given key: models looking up the rank
that `enumerate` wrote back into the sorted dict. -/
def rankOf : List (String × Nat) → String → Option Nat
  | [], _ => none
  | p :: ps, k => if p.1 = k then some 0 else (rankOf ps k).map (· + 1)

/-- `get_morph_collection_priority`: keys are `morph_norm + morph_inflected`;
count occurrences across the whole `Card_Morph_Map`, sort descending by
count, and let the priority of a key be its index in that order. -/
def get_morph_collection_priority (rows : List CardMorphRow) : String → Option Nat :=
  let temp_list := rows.map (fun r => r.morph_norm ++ r.morph_inflected)
  let counted := temp_list.foldl counterBump []
  rankOf (sortByCountDesc counted)

/-- `get_morph_priority`: when `recalc_prioritize_collection` is off the
returned dict is the initial empty `{}` (every lookup is a `KeyError`). -/
def get_morph_priority (rows : List CardMorphRow) (am_config : AmConfig) :
    String → Option Nat :=
  if am_config.recalc_prioritize_collection then
    get_morph_collection_priority rows
  else
    fun _ => none

/-! ## Difficulty scorer -/

def default_difficulty : Nat := 2147483647

def morph_unknown_penalty : Nat := 500000

/-- The `for morph in card_morphs` loop of `get_card_difficulty_and_unknowns`.
A failed dict lookup (`morph_cache[...]` or `morph_priority[...]`) is an
uncaught `KeyError`, modelled as `none`. -/
def difficultyLoop (morph_cache morph_priority : String → Option Nat) :
    List MorphEntry → Nat → List String → Option (Nat × List String)
  | [], difficulty, unknowns => some (difficulty, unknowns)
  | m :: ms, difficulty, unknowns =>
    match morph_cache m.entire_morph with
    | none => none
    | some highest_interval =>
      let unknowns' := if highest_interval = 0 then unknowns ++ [m.inflected_morph] else unknowns
      match morph_priority m.entire_morph with
      | none => none
      | some p => difficultyLoop morph_cache morph_priority ms (difficulty + p) unknowns'

/-- `get_card_difficulty_and_unknowns`: a card absent from
`card_morph_map_cache` gets the sentinel; otherwise sum the priorities,
clamp the sum at `morph_unknown_penalty - 1`, add
`len(unknowns) * morph_unknown_penalty`, and give fully-known cards the
sentinel when `skip_stale_cards` is set. -/
def get_card_difficulty_and_unknowns (am_config : AmConfig) (card_id : Nat)
    (card_morph_map_cache : Nat → Option (List MorphEntry))
    (morph_cache morph_priority : String → Option Nat) :
    Option (Nat × List String) :=
  match card_morph_map_cache card_id with
  | none => some (default_difficulty, [])
  | some card_morphs =>
    match difficultyLoop morph_cache morph_priority card_morphs 0 [] with
    | none => none
    | some (difficulty, unknowns) =>
      let difficulty :=
        if morph_unknown_penalty ≤ difficulty then morph_unknown_penalty - 1 else difficulty
      let difficulty := difficulty + unknowns.length * morph_unknown_penalty
      if unknowns.length = 0 ∧ am_config.skip_stale_cards then
        some (default_difficulty, [])
      else
        some (difficulty, unknowns)

/-! ## Tag update -/

/-- `if tag not in note.tags: note.tags.append(tag)`. -/
def addTag (tags : List String) (t : String) : List String :=
  if t ∈ tags then tags else tags ++ [t]

/-- `if tag in note.tags: note.tags.remove(tag)`; Python `list.remove` drops
the first occurrence, like `List.erase`. -/
def removeTag (tags : List String) (t : String) : List String :=
  if t ∈ tags then tags.erase t else tags

/-- `update_tags`: sequential membership-guarded append/remove operations on
`note.tags`, branching on the unknown count. -/
def update_tags (am_config : AmConfig) (tags : List String) (unknowns : Nat) :
    List String :=
  if unknowns = 0 then
    removeTag (addTag tags am_config.tag_known) am_config.tag_ready
  else if unknowns = 1 then
    removeTag (addTag tags am_config.tag_ready) am_config.tag_not_ready
  else
    addTag tags am_config.tag_not_ready

/-! ## Highlighter (`highlight_text` / `non_span_sub`)

Strings are modelled as `List Char`.  `re.IGNORECASE` is modelled through
ASCII lowercasing (`Char.toLower`), and the morph surface form is matched
literally: the Python code interpolates it into the regex, which agrees
with this model exactly for surface forms free of `regexSpecials`, and the
highlighter theorems restrict themselves to that fragment.  The recursions
over shrinking suffixes are written with an explicit fuel argument, always
called with enough fuel. -/

/-- The case folding used for `re.IGNORECASE`, modelled with ASCII
lowercasing.  Python folds further Unicode case pairs; like the ASCII fold,
that folding is character-by-character and length-preserving and maps no
character to `'<'` or `'\n'`, which is all the proofs below rely on. -/
def lc (c : Char) : Char := c.toLower

/-- `"<span"`: the opener of the splitter regex and of the `startswith`
check. -/
def spanOpen : List Char := "<span".data

/-- `"</span>"`. -/
def spanClose : List Char := "</span>".data

/-- Literal list prefix test. -/
def litPre : List Char → List Char → Bool
  | [], _ => true
  | _ :: _, [] => false
  | a :: as, b :: bs => a == b && litPre as bs

/-- Case-insensitive prefix test. -/
def ciPre : List Char → List Char → Bool
  | [], _ => true
  | _ :: _, [] => false
  | a :: as, b :: bs => lc a == lc b && ciPre as bs

/-- Case-insensitive containment (an occurrence anywhere). -/
def ciContains (pat : List Char) : List Char → Bool
  | [] => ciPre pat []
  | s@(_ :: cs) => ciPre pat s || ciContains pat cs

/-- The lazy `.*?</span>` scan of the splitter regex: consume characters
(never a newline, since `.` does not match one) until the literal
`</span>`; `none` when no close is reachable. -/
def scanToClose : List Char → Option (List Char × List Char)
  | [] => none
  | c :: cs =>
    if litPre spanClose (c :: cs) then some ([], (c :: cs).drop spanClose.length)
    else if c = '\n' then none
    else
      match scanToClose cs with
      | some (mid, rest) => some (c :: mid, rest)
      | none => none

/-- One pass of `re.split("(<span.*?</span>)", string)`: `acc` holds the
reversed non-captured run before the next match. -/
def splitGo : Nat → List Char → List Char → List (List Char)
  | 0, acc, s => [acc.reverse ++ s]
  | _ + 1, acc, [] => [acc.reverse]
  | fuel + 1, acc, c :: cs =>
    if litPre spanOpen (c :: cs) then
      match scanToClose ((c :: cs).drop spanOpen.length) with
      | some (mid, rest) =>
        acc.reverse :: (spanOpen ++ mid ++ spanClose) :: splitGo fuel [] rest
      | none => splitGo fuel (c :: acc) cs
    else splitGo fuel (c :: acc) cs

/-- `re.split("(<span.*?</span>)", string)`: alternating non-captured pieces
(possibly empty) and captured span groups. -/
def splitSpans (s : List Char) : List (List Char) := splitGo s.length [] s

/-- `"<span morph-status=\""`. -/
def attrPre : List Char := "<span morph-status=\"".data

/-- `"\">"`. -/
def attrPost : List Char := "\">".data

/-- The replacement `f'<span morph-status="{morph_status}">\\1</span>'`
instantiated at a matched occurrence (`\1` keeps the original case). -/
def mkUnit (morph_status matched : List Char) : List Char :=
  attrPre ++ morph_status ++ attrPost ++ matched ++ spanClose

/-- The characters Python's `re` treats specially in a pattern.  The code
interpolates the raw surface form into the regex (`f"({sub})"`,
recalc.py:606), so the literal-matching model below is faithful exactly for
surface forms that contain none of these; the highlighter theorems carry
that restriction as a hypothesis. -/
def regexSpecials : List Char :=
  ['.', '^', '$', '*', '+', '?', '\x7b', '\x7d', '[', ']', '\\', '|', '(', ')']

/-- `re.sub(f"({sub})", repl, piece, flags=re.IGNORECASE)` restricted to the
fragment where the interpolated `sub` contains no character of
`regexSpecials`, so the pattern is a regex literal: wrap the leftmost
non-overlapping case-insensitive occurrences; an empty `sub` gives the empty
group `()`, which matches (empty) at every position. -/
def ciSubF (morph_status pat : List Char) : Nat → List Char → List Char
  | 0, s => s
  | _ + 1, [] => if pat.isEmpty then mkUnit morph_status [] else []
  | fuel + 1, c :: cs =>
    if pat.isEmpty then mkUnit morph_status [] ++ c :: ciSubF morph_status pat fuel cs
    else if ciPre pat (c :: cs) then
      mkUnit morph_status ((c :: cs).take pat.length) ++
        ciSubF morph_status pat fuel ((c :: cs).drop pat.length)
    else c :: ciSubF morph_status pat fuel cs

/-- `re.sub` over a whole piece (same `regexSpecials`-free fragment as
`ciSubF`). -/
def ciSub (morph_status pat s : List Char) : List Char :=
  ciSubF morph_status pat (s.length + 1) s

/-- `non_span_sub`: split on span groups; every piece beginning with
`<span` (the `startswith` check, which both keeps captured groups and
skips unparsed text that happens to start with `<span`) passes through
verbatim, the rest are substituted. -/
def non_span_sub (morph_status pat s : List Char) : List Char :=
  ((splitSpans s).map (fun piece =>
    if litPre spanOpen piece then piece else ciSub morph_status pat piece)).flatten

/-- The maturity classification of `highlight_text`. -/
def morph_status_of (am_config : AmConfig) (highest_interval : Nat) : List Char :=
  if highest_interval = 0 then "unknown".data
  else if highest_interval < am_config.recalc_interval_for_known then "learning".data
  else "known".data

/-- Stable insertion, descending by surface-form length: models
`sorted(card_morphs, key=lambda x: len(x["inflected_morph"]), reverse=True)`. -/
def insertByLenDesc (m : MorphEntry) : List MorphEntry → List MorphEntry
  | [] => [m]
  | x :: xs =>
    if m.inflected_morph.length ≤ x.inflected_morph.length then
      x :: insertByLenDesc m xs
    else m :: x :: xs

/-- Python's stable `sorted(..., reverse=True)` on the surface-form length. -/
def sortMorphsDesc (l : List MorphEntry) : List MorphEntry :=
  l.foldl (fun acc m => insertByLenDesc m acc) []

/-- The body of `highlight_text`'s `for morph in sorted_morphs` loop: look
up the interval (a `KeyError` propagates) and substitute outside spans. -/
def hlStep (am_config : AmConfig) (morph_cache : String → Option Nat)
    (txt : List Char) (m : MorphEntry) : Option (List Char) :=
  match morph_cache m.entire_morph with
  | none => none
  | some hi =>
    some (non_span_sub (morph_status_of am_config hi) m.inflected_morph.data txt)

/-- `highlight_text`: substitute each morph, longest surface form first,
skipping span regions; the `morph_cache[...]` lookup can raise (`none`). -/
def highlight_text (am_config : AmConfig) (card_morphs : List MorphEntry)
    (morph_cache : String → Option Nat) (text_to_highlight : List Char) :
    Option (List Char) :=
  (sortMorphsDesc card_morphs).foldlM (hlStep am_config morph_cache) text_to_highlight

/-! ## Queue updater (`update_cards`) -/

/-- Anki's `CARD_TYPE_NEW`. -/
def CARD_TYPE_NEW : Nat := 0

/-- The card fields relevant to queue ordering: id, lifecycle type
(0 = new, 1 = learning, 2 = review) and `due`. -/
structure MCard where
  cid : Nat
  ctype : Nat
  due : Int
deriving DecidableEq

/-- The per-card body of the `update_cards` loop, restricted to the ordering
key: only a card whose type is `CARD_TYPE_NEW` gets `card.due` overwritten
with its computed difficulty. -/
def processCard (difficultyOf : Nat → Int) (c : MCard) : MCard :=
  if c.ctype = CARD_TYPE_NEW then { c with due := difficultyOf c.cid } else c

/-- Stable insertion by `due` (ascending). -/
def insertByDue (c : MCard) : List MCard → List MCard
  | [] => [c]
  | d :: ds => if d.due ≤ c.due then d :: insertByDue c ds else c :: d :: ds

/-- `modified_cards.sort(key=lambda _card: _card.due)`: Python's stable sort,
modelled as stable insertion in processing order. -/
def sortByDue (l : List MCard) : List MCard :=
  l.foldl (fun acc c => insertByDue c acc) []

/-- `for index, card in enumerate(modified_cards, start=end_of_queue)`:
the index advances on every card, but only `CARD_TYPE_NEW` cards get
`card.due = index`. -/
def assignFrom (start : Nat) : List MCard → List MCard
  | [] => []
  | c :: cs =>
    (if c.ctype = CARD_TYPE_NEW then { c with due := (start : Int) } else c)
      :: assignFrom (start + 1) cs

/-- `select count() from cards where type = 0` over the whole collection. -/
def end_of_queue (allCards : List MCard) : Nat :=
  (allCards.filter (fun c => c.ctype = CARD_TYPE_NEW)).length

/-- The queue-ordering skeleton of `update_cards`: assign difficulties to the
new cards among the modified ones, sort all modified cards by `due`, then
run the UNIQUE DUE pass starting at `end_of_queue`. -/
def update_cards (difficultyOf : Nat → Int) (allCards touched : List MCard) :
    List MCard :=
  assignFrom (end_of_queue allCards) (sortByDue (touched.map (processCard difficultyOf)))

/-! ## Cache builder abort behaviour (`cache_anki_data`) -/

/-- The cache tables owned by `AnkiMorphsDB`. -/
structure CacheDB where
  morphTable : List MorphRow
  cardTable : List Nat
  cardMorphMapTable : List CardMorphRow
deriving DecidableEq

/-- The exceptions `cache_anki_data` can raise. -/
inductive RecalcErr
  | defaultSettings
  | cancelled
deriving DecidableEq

/-- The empty tables right after `drop_all_tables(); create_all_tables()`. -/
def emptyCache : CacheDB := ⟨[], [], []⟩

/-- Concatenation of the in-memory row lists of two table groups. -/
def appendCache (a b : CacheDB) : CacheDB :=
  ⟨a.morphTable ++ b.morphTable, a.cardTable ++ b.cardTable,
    a.cardMorphMapTable ++ b.cardMorphMapTable⟩

/-- The filter fields `cache_anki_data` consults before reading cards. -/
structure MFilter where
  note_type : String
deriving DecidableEq

/-- The `for config_filter in read_config_filters` loop: a filter with an
unset note type raises `DefaultSettingsException`; the accumulated
in-memory rows are only inserted after the loop, so an abort leaves the
freshly created (empty) tables in place. -/
def cache_anki_data_go (rowsOf : MFilter → CacheDB) :
    List MFilter → CacheDB → CacheDB × Option RecalcErr
  | [], acc => (acc, none)
  | f :: fs, acc =>
    if f.note_type = "" then (emptyCache, some RecalcErr.defaultSettings)
    else cache_anki_data_go rowsOf fs (appendCache acc (rowsOf f))

/-- `cache_anki_data`: the previous cache contents `db` are dropped
unconditionally before the filter loop runs. -/
def cache_anki_data (read_config_filters : List MFilter) (rowsOf : MFilter → CacheDB)
    (_db : CacheDB) : CacheDB × Option RecalcErr :=
  cache_anki_data_go rowsOf read_config_filters emptyCache

/-- `recalc_background_op`: `cache_anki_data` then `update_cards`; an
exception in the former prevents any queue write in the latter. -/
def recalc_background_op (read_config_filters : List MFilter)
    (rowsOf : MFilter → CacheDB) (db : CacheDB)
    (updateQueue : List MCard → List MCard) (queue : List MCard) :
    CacheDB × List MCard × Option RecalcErr :=
  match cache_anki_data read_config_filters rowsOf db with
  | (db', some e) => (db', queue, some e)
  | (db', none) => (db', updateQueue queue, none)

/-! ## Claim C1: monotonic penalty dominance -/

/-- Fixture for C1's counterexample: `skip_stale_cards` is enabled. -/
def c1cfg : AmConfig := ⟨true, true, 21, "k", "r", "n"⟩

def c1cmm : Nat → Option (List MorphEntry) := fun cid =>
  if cid = 1 then some [⟨"aa", "a"⟩] else if cid = 2 then some [⟨"bb", "b"⟩] else none

def c1mc : String → Option Nat := fun k =>
  if k = "aa" then some 30 else if k = "bb" then some 0 else none

def c1mp : String → Option Nat := fun k =>
  if k = "aa" then some 0 else if k = "bb" then some 0 else none

/-- Claim C1 is false as stated: with the "deprioritize fully-known cards"
option (`skip_stale_cards`) enabled, card 1 has zero unknown morphemes but
receives the sentinel difficulty 2147483647, while card 2 with one unknown
morpheme receives 500000 — strictly fewer unknowns, strictly larger
difficulty, although both cards have associations in the cache. -/
theorem c1_counterexample :
    c1cmm 1 ≠ none ∧ c1cmm 2 ≠ none ∧
    get_card_difficulty_and_unknowns c1cfg 1 c1cmm c1mc c1mp =
      some (2147483647, []) ∧
    get_card_difficulty_and_unknowns c1cfg 2 c1cmm c1mc c1mp =
      some (500000, ["b"]) ∧
    ([] : List String).length < (["b"] : List String).length ∧
    ¬ (2147483647 < 500000) := by decide

/-- Any successful difficulty computation for a card with associations, with
`skip_stale_cards` off, has the clamped-priority-plus-penalty shape. -/
theorem difficulty_shape {am_config : AmConfig} {card_id : Nat}
    {cmm : Nat → Option (List MorphEntry)} {mc mp : String → Option Nat}
    {d : Nat} {u : List String}
    (hskip : am_config.skip_stale_cards = false)
    (hassoc : cmm card_id ≠ none)
    (h : get_card_difficulty_and_unknowns am_config card_id cmm mc mp = some (d, u)) :
    ∃ s, d = (if morph_unknown_penalty ≤ s then morph_unknown_penalty - 1 else s)
      + u.length * morph_unknown_penalty := by
  unfold get_card_difficulty_and_unknowns at h
  split at h
  next hc => exact absurd hc hassoc
  next ms hc =>
    split at h
    next => exact absurd h (by simp)
    next d0 u0 hl =>
      simp only [hskip, Bool.false_eq_true, and_false, if_false,
        Option.some.injEq, Prod.mk.injEq] at h
      obtain ⟨hd, hu⟩ := h
      exact ⟨d0, by rw [← hd, ← hu]⟩

/-- Claim C1 (amended): the dominance property holds for every pair of cards
with cache associations whenever `skip_stale_cards` is disabled (the
counterexample shows the stale-card sentinel breaks it otherwise). -/
theorem c1_amended {am_config : AmConfig}
    {cmm : Nat → Option (List MorphEntry)} {mc mp : String → Option Nat}
    {a b dA dB : Nat} {uA uB : List String}
    (hskip : am_config.skip_stale_cards = false)
    (hA : cmm a ≠ none) (hB : cmm b ≠ none)
    (hdA : get_card_difficulty_and_unknowns am_config a cmm mc mp = some (dA, uA))
    (hdB : get_card_difficulty_and_unknowns am_config b cmm mc mp = some (dB, uB))
    (hlt : uA.length < uB.length) :
    dA < dB := by
  obtain ⟨sA, hA'⟩ := difficulty_shape hskip hA hdA
  obtain ⟨sB, hB'⟩ := difficulty_shape hskip hB hdB
  unfold morph_unknown_penalty at hA' hB'
  have h1 : (if 500000 ≤ sA then 500000 - 1 else sA) < 500000 := by
    split <;> omega
  have h2 : 0 ≤ (if 500000 ≤ sB then 500000 - 1 else sB) := Nat.zero_le _
  omega

/-- Fixture for the C1 witness: same caches, `skip_stale_cards` off. -/
def c1wcfg : AmConfig := ⟨false, true, 21, "k", "r", "n"⟩

/-- Witness instantiating `c1_amended`: card 1 (0 unknowns, difficulty 0) and
card 2 (1 unknown, difficulty 500000). -/
theorem c1_amended_witness :
    get_card_difficulty_and_unknowns c1wcfg 1 c1cmm c1mc c1mp = some (0, []) ∧
    get_card_difficulty_and_unknowns c1wcfg 2 c1cmm c1mc c1mp = some (500000, ["b"]) ∧
    (0 : Nat) < 500000 := by
  have hA : get_card_difficulty_and_unknowns c1wcfg 1 c1cmm c1mc c1mp =
      some (0, []) := by decide
  have hB : get_card_difficulty_and_unknowns c1wcfg 2 c1cmm c1mc c1mp =
      some (500000, ["b"]) := by decide
  exact ⟨hA, hB, c1_amended rfl (by decide) (by decide) hA hB (by decide)⟩

/-! ## Claim C2: global uniqueness pass -/

/-- Boolean test for `card.type == CARD_TYPE_NEW`. -/
def isNew (c : MCard) : Bool := c.ctype == CARD_TYPE_NEW

/-- The final ordering keys of the new cards of a list, in list order. -/
def newDues (l : List MCard) : List Int :=
  (l.filter isNew).map (fun c => c.due)

/-- Claim C2 is false as stated: the untouched existing new card 1 holds key
50; the single recalculated new card 2 ends with key 2 (`end_of_queue` = 2
counts both new cards), which is not strictly greater than 50. -/
theorem c2_counterexample :
    update_cards (fun _ => 3) [⟨1, 0, 50⟩, ⟨2, 0, 7⟩] [⟨2, 0, 7⟩] = [⟨2, 0, 2⟩] ∧
    (⟨1, 0, 50⟩ : MCard) ∈ [(⟨1, 0, 50⟩ : MCard), ⟨2, 0, 7⟩] ∧
    (⟨1, 0, 50⟩ : MCard) ∉ [(⟨2, 0, 7⟩ : MCard)] ∧
    (⟨1, 0, 50⟩ : MCard).ctype = CARD_TYPE_NEW ∧
    ¬ ((50 : Int) < 2) := by decide

/-- The enumerate-and-assign pass gives the new cards pairwise strictly
increasing keys, all at least `start`. -/
theorem assignFrom_newDues (start : Nat) (l : List MCard) :
    List.Pairwise (· < ·) (newDues (assignFrom start l)) ∧
    ∀ d ∈ newDues (assignFrom start l), (start : Int) ≤ d := by
  induction l generalizing start with
  | nil => simp [assignFrom, newDues]
  | cons c cs ih =>
    obtain ⟨ih1, ih2⟩ := ih (start + 1)
    by_cases hc : c.ctype = CARD_TYPE_NEW
    · have hhead : newDues (assignFrom start (c :: cs)) =
          (start : Int) :: newDues (assignFrom (start + 1) cs) := by
        simp [assignFrom, newDues, isNew, hc, List.filter_cons]
      rw [hhead]
      constructor
      · rw [List.pairwise_cons]
        refine ⟨fun d hd => ?_, ih1⟩
        have := ih2 d hd
        push_cast at this ⊢
        omega
      · intro d hd
        rcases List.mem_cons.mp hd with rfl | hd
        · exact le_refl _
        · have := ih2 d hd
          push_cast at this ⊢
          omega
    · have hhead : newDues (assignFrom start (c :: cs)) =
          newDues (assignFrom (start + 1) cs) := by
        simp [assignFrom, newDues, isNew, hc, List.filter_cons]
      rw [hhead]
      refine ⟨ih1, fun d hd => ?_⟩
      have := ih2 d hd
      push_cast at this ⊢
      omega

/-- Claim C2 (amended): after `update_cards`, the recalculated new cards'
keys are pairwise distinct (strictly increasing in output order) and each at
least `end_of_queue` — the count of all new cards, including the modified
ones.  They exceed an untouched card's key only when that key is below
`end_of_queue`; the counterexample shows this is not always the case. -/
theorem c2_amended (difficultyOf : Nat → Int) (allCards touched : List MCard) :
    List.Pairwise (· < ·) (newDues (update_cards difficultyOf allCards touched)) ∧
    ∀ d ∈ newDues (update_cards difficultyOf allCards touched),
      (end_of_queue allCards : Int) ≤ d :=
  assignFrom_newDues _ _

/-- Witness instantiating `c2_amended` on a two-card recalculation: the two
new cards end with keys 3 and 4, distinct and at least `end_of_queue` = 3. -/
theorem c2_amended_witness :
    List.Pairwise (· < ·)
      (newDues (update_cards (fun _ => 9)
        [⟨1, 0, 50⟩, ⟨2, 0, 7⟩, ⟨3, 0, 5⟩] [⟨2, 0, 7⟩, ⟨3, 0, 5⟩])) ∧
    ((end_of_queue [⟨1, 0, 50⟩, ⟨2, 0, 7⟩, ⟨3, 0, 5⟩] : Int) ≤ 3) := by
  have h := c2_amended (fun _ => 9)
    [⟨1, 0, 50⟩, ⟨2, 0, 7⟩, ⟨3, 0, 5⟩] [⟨2, 0, 7⟩, ⟨3, 0, 5⟩]
  exact ⟨h.1, h.2 3 (by decide)⟩

/-! ## Claim C9: non-new cards keep their ordering key -/

/-- Boolean test for a card in the learning or review state. -/
def notNew (c : MCard) : Bool := c.ctype != CARD_TYPE_NEW

/-- `insertByDue` inserts, up to permutation. -/
theorem insertByDue_perm (c : MCard) (l : List MCard) :
    List.Perm (insertByDue c l) (c :: l) := by
  induction l with
  | nil => simp [insertByDue]
  | cons d ds ih =>
    simp only [insertByDue]
    split
    · exact ((ih.cons d).trans (List.Perm.swap c d ds))
    · exact List.Perm.refl _

/-- The insertion-fold sorts up to permutation. -/
theorem sortByDue_perm (l : List MCard) : List.Perm (sortByDue l) l := by
  suffices h : ∀ acc, List.Perm (List.foldl (fun acc c => insertByDue c acc) acc l)
      (acc ++ l) by
    simpa using h []
  induction l with
  | nil => intro acc; simp
  | cons c cs ih =>
    intro acc
    simp only [List.foldl_cons]
    have h1 := ih (insertByDue c acc)
    have h2 : List.Perm (insertByDue c acc ++ cs) ((c :: acc) ++ cs) :=
      List.Perm.append_right cs (insertByDue_perm c acc)
    have h3 : List.Perm ((c :: acc) ++ cs) (acc ++ c :: cs) :=
      (@List.perm_middle MCard c acc cs).symm
    exact (h1.trans h2).trans h3

/-- `processCard` keeps the lifecycle state. -/
theorem processCard_ctype (difficultyOf : Nat → Int) (c : MCard) :
    (processCard difficultyOf c).ctype = c.ctype := by
  rw [processCard]; split <;> rfl

/-- A non-new card is not modified by `processCard`. -/
theorem processCard_of_notNew {difficultyOf : Nat → Int} {c : MCard}
    (h : notNew c = true) : processCard difficultyOf c = c := by
  rw [processCard, if_neg]
  intro hc
  simp [notNew, hc] at h

/-- Difficulty assignment leaves the non-new cards untouched. -/
theorem processCard_filter (difficultyOf : Nat → Int) (l : List MCard) :
    (l.map (processCard difficultyOf)).filter notNew = l.filter notNew := by
  induction l with
  | nil => rfl
  | cons c cs ih =>
    rw [List.map_cons, List.filter_cons, List.filter_cons]
    have hn : notNew (processCard difficultyOf c) = notNew c := by
      simp [notNew, processCard_ctype]
    rw [hn]
    by_cases hc : notNew c = true
    · rw [if_pos hc, if_pos hc, processCard_of_notNew hc, ih]
    · rw [if_neg hc, if_neg hc, ih]

/-- The unique-due pass leaves the non-new cards untouched. -/
theorem assignFrom_filter (start : Nat) (l : List MCard) :
    (assignFrom start l).filter notNew = l.filter notNew := by
  induction l generalizing start with
  | nil => rfl
  | cons c cs ih =>
    rw [assignFrom, List.filter_cons, List.filter_cons]
    by_cases hc : c.ctype = CARD_TYPE_NEW
    · have hn : notNew c = false := by simp [notNew, hc]
      rw [if_pos hc]
      have hn' : notNew { c with due := (start : Int) } = false := by
        simp [notNew, hc]
      rw [hn, hn', if_neg (by simp), if_neg (by simp), ih]
    · rw [if_neg hc]
      by_cases hn : notNew c = true
      · rw [if_pos hn, if_pos hn, ih]
      · rw [if_neg hn, if_neg hn, ih]

/-- Claim C9: a card whose lifecycle state is not "new" passes through the
whole of `update_cards` unchanged — in particular its `due` value — because
difficulty assignment is guarded by the new-state check and the uniqueness
pass skips non-new cards.  The non-new cards of the output are exactly (as
a multiset) the non-new input cards. -/
theorem c9_frame (difficultyOf : Nat → Int) (allCards touched : List MCard) :
    List.Perm ((update_cards difficultyOf allCards touched).filter notNew)
      (touched.filter notNew) := by
  unfold update_cards
  rw [assignFrom_filter]
  have h1 : List.Perm
      ((sortByDue (touched.map (processCard difficultyOf))).filter notNew)
      ((touched.map (processCard difficultyOf)).filter notNew) :=
    (sortByDue_perm _).filter _
  rw [processCard_filter] at h1
  exact h1

/-! ## Claim C3: tag transitions -/

/-- Fixture for C3. -/
def c3cfg : AmConfig := ⟨false, true, 21, "am-known", "am-ready", "am-not-ready"⟩

/-- Claim C3 is false as stated: a note carrying the not-ready tag that
reaches zero unknowns keeps its stale not-ready tag next to the freshly
added known tag — two of the three tags coexist after the update. -/
theorem c3_counterexample :
    update_tags c3cfg ["am-not-ready"] 0 = ["am-not-ready", "am-known"] ∧
    c3cfg.tag_not_ready ∈ update_tags c3cfg ["am-not-ready"] 0 ∧
    c3cfg.tag_known ∈ update_tags c3cfg ["am-not-ready"] 0 := by decide

theorem addTag_nodup {tags : List String} {t : String} (hnd : tags.Nodup) :
    (addTag tags t).Nodup := by
  rw [addTag]
  split
  · exact hnd
  · next h =>
    refine List.Nodup.append hnd (List.nodup_singleton t) ?_
    intro a ha hat
    exact h ((List.mem_singleton.mp hat) ▸ ha)

theorem mem_addTag_self (tags : List String) (t : String) : t ∈ addTag tags t := by
  rw [addTag]
  split
  · assumption
  · simp

theorem mem_addTag_iff {s t : String} (tags : List String) (hne : s ≠ t) :
    s ∈ addTag tags t ↔ s ∈ tags := by
  rw [addTag]
  split
  · exact Iff.rfl
  · simp [hne]

theorem not_mem_removeTag_self {tags : List String} {t : String} (hnd : tags.Nodup) :
    t ∉ removeTag tags t := by
  rw [removeTag]
  split
  · exact hnd.not_mem_erase
  · assumption

theorem mem_removeTag_iff {s t : String} (tags : List String) (hne : s ≠ t) :
    s ∈ removeTag tags t ↔ s ∈ tags := by
  rw [removeTag]
  split
  · exact List.mem_erase_of_ne hne
  · exact Iff.rfl

/-- Claim C3 (amended): each branch of `update_tags` only adds its own tag
and removes the one tag the code names: with 0 unknowns the known tag is
present and the ready tag absent but the not-ready tag is carried over from
the input; with 1 unknown the ready tag is present and not-ready absent but
known is carried over; with 2+ unknowns not-ready is present and both
others are carried over.  Mutual exclusivity therefore only holds when the
input tags contain no stale tag of the three. -/
theorem c3_amended (am_config : AmConfig) (tags : List String) (unknowns : Nat)
    (hnd : tags.Nodup)
    (hkr : am_config.tag_known ≠ am_config.tag_ready)
    (hkn : am_config.tag_known ≠ am_config.tag_not_ready)
    (hrn : am_config.tag_ready ≠ am_config.tag_not_ready) :
    (unknowns = 0 →
      am_config.tag_known ∈ update_tags am_config tags unknowns ∧
      am_config.tag_ready ∉ update_tags am_config tags unknowns ∧
      (am_config.tag_not_ready ∈ update_tags am_config tags unknowns ↔
        am_config.tag_not_ready ∈ tags)) ∧
    (unknowns = 1 →
      am_config.tag_ready ∈ update_tags am_config tags unknowns ∧
      am_config.tag_not_ready ∉ update_tags am_config tags unknowns ∧
      (am_config.tag_known ∈ update_tags am_config tags unknowns ↔
        am_config.tag_known ∈ tags)) ∧
    (2 ≤ unknowns →
      am_config.tag_not_ready ∈ update_tags am_config tags unknowns ∧
      (am_config.tag_ready ∈ update_tags am_config tags unknowns ↔
        am_config.tag_ready ∈ tags) ∧
      (am_config.tag_known ∈ update_tags am_config tags unknowns ↔
        am_config.tag_known ∈ tags)) := by
  refine ⟨fun h0 => ?_, fun h1 => ?_, fun h2 => ?_⟩
  · subst h0
    rw [update_tags, if_pos rfl]
    refine ⟨?_, ?_, ?_⟩
    · exact (mem_removeTag_iff _ hkr).mpr (mem_addTag_self tags _)
    · exact not_mem_removeTag_self (addTag_nodup hnd)
    · rw [mem_removeTag_iff _ (Ne.symm hrn), mem_addTag_iff _ (Ne.symm hkn)]
  · subst h1
    rw [update_tags, if_neg (by omega), if_pos rfl]
    refine ⟨?_, ?_, ?_⟩
    · exact (mem_removeTag_iff _ hrn).mpr (mem_addTag_self tags _)
    · exact not_mem_removeTag_self (addTag_nodup hnd)
    · rw [mem_removeTag_iff _ hkn, mem_addTag_iff _ hkr]
  · rw [update_tags, if_neg (by omega), if_neg (by omega)]
    refine ⟨mem_addTag_self tags _, ?_, ?_⟩
    · exact mem_addTag_iff _ hrn
    · exact mem_addTag_iff _ hkn

/-- Witness instantiating `c3_amended` at a note with a stale not-ready tag
and zero unknowns. -/
theorem c3_amended_witness :
    c3cfg.tag_known ∈ update_tags c3cfg ["am-not-ready"] 0 ∧
    c3cfg.tag_ready ∉ update_tags c3cfg ["am-not-ready"] 0 ∧
    (c3cfg.tag_not_ready ∈ update_tags c3cfg ["am-not-ready"] 0 ↔
      c3cfg.tag_not_ready ∈ (["am-not-ready"] : List String)) :=
  (c3_amended c3cfg ["am-not-ready"] 0 (by decide) (by decide) (by decide)
    (by decide)).1 rfl

/-! ## Claim C4: prioritization disabled -/

/-- Fixture for C4: `recalc_prioritize_collection` is off. -/
def c4cfg : AmConfig := ⟨false, false, 21, "k", "r", "n"⟩

def c4rows : List CardMorphRow := [⟨1, "ne", "ko"⟩]

def c4cmm : Nat → Option (List MorphEntry) := get_card_morph_map_cache c4rows

def c4mc : String → Option Nat := get_morph_cache [⟨"ne", "ko", 0⟩]

/-- Claim C4 evaluated on the code at the failing input: with prioritization
disabled `get_morph_priority` returns the empty dict, so the priority lookup
for a morpheme that is present in the interval cache is a `KeyError`
(`none`), and the difficulty computation fails (`none`) instead of
returning `len(unknowns) * 500000`. -/
theorem c4_bug_eval :
    c4mc ("ne" ++ "ko") = some 0 ∧
    get_morph_priority c4rows c4cfg ("ne" ++ "ko") = none ∧
    get_card_difficulty_and_unknowns c4cfg 1 c4cmm c4mc
      (get_morph_priority c4rows c4cfg) = none := by decide

/-! ## Claim C5: configuration-error atomicity -/

/-- A non-empty cache as it could stand before a Recalc run. -/
def c5db : CacheDB := ⟨[⟨"a", "a", 5⟩], [7], [⟨7, "a", "a"⟩]⟩

/-- Claim C5 is false as stated: the tables are dropped and recreated before
the note-type check runs, so after the `DefaultSettingsException` abort the
observable cache is empty — not the pre-run state. -/
theorem c5_counterexample :
    cache_anki_data [⟨""⟩] (fun _ => emptyCache) c5db =
      (emptyCache, some RecalcErr.defaultSettings) ∧
    emptyCache ≠ c5db := by decide

/-- The filter loop aborts with empty tables whenever some filter has an
unset note type. -/
theorem cache_anki_data_go_abort (rowsOf : MFilter → CacheDB) :
    ∀ (fs : List MFilter) (acc : CacheDB), (∃ f ∈ fs, f.note_type = "") →
      cache_anki_data_go rowsOf fs acc = (emptyCache, some RecalcErr.defaultSettings) := by
  intro fs
  induction fs with
  | nil => intro acc h; exact absurd h (by simp)
  | cons f fs ih =>
    intro acc h
    rw [cache_anki_data_go]
    by_cases hf : f.note_type = ""
    · rw [if_pos hf]
    · rw [if_neg hf]
      refine ih _ ?_
      rcases h with ⟨g, hg, hg'⟩
      rcases List.mem_cons.mp hg with rfl | hg
      · exact absurd hg' hf
      · exact ⟨g, hg, hg'⟩

/-- Claim C5 (amended): when an enabled read filter has an unset note type
the run aborts with the configuration error before any insert into the
cache tables and before any queue write — but the tables were already
dropped and recreated, so the post-abort cache equals the empty cache,
not the pre-run state. -/
theorem c5_amended (read_config_filters : List MFilter) (rowsOf : MFilter → CacheDB)
    (db : CacheDB) (updateQueue : List MCard → List MCard) (queue : List MCard)
    (h : ∃ f ∈ read_config_filters, f.note_type = "") :
    cache_anki_data read_config_filters rowsOf db =
      (emptyCache, some RecalcErr.defaultSettings) ∧
    (recalc_background_op read_config_filters rowsOf db updateQueue queue).2.1 =
      queue := by
  have habort := cache_anki_data_go_abort rowsOf read_config_filters emptyCache h
  refine ⟨habort, ?_⟩
  rw [recalc_background_op]
  rw [show cache_anki_data read_config_filters rowsOf db =
    (emptyCache, some RecalcErr.defaultSettings) from habort]

/-- Witness instantiating `c5_amended` on a one-filter configuration with an
unset note type and a non-trivial starting cache and queue. -/
theorem c5_amended_witness :
    cache_anki_data [⟨""⟩] (fun _ => emptyCache) c5db =
      (emptyCache, some RecalcErr.defaultSettings) ∧
    (recalc_background_op [⟨""⟩] (fun _ => emptyCache) c5db
      (fun _ => []) [⟨1, 0, 50⟩]).2.1 = [⟨1, 0, 50⟩] :=
  c5_amended [⟨""⟩] (fun _ => emptyCache) c5db (fun _ => []) [⟨1, 0, 50⟩]
    ⟨⟨""⟩, by decide, by decide⟩

/-! ## Claim C8: concrete scoring scenario -/

/-- Fixture for C8: threshold 21, tags as in the scenario. -/
def c8cfg : AmConfig := ⟨false, true, 21, "am-known", "am-ready", "am-not-ready"⟩

/-- The interval cache for 猫(0), が(30), 好き(30), です(30). -/
def c8mc : String → Option Nat := get_morph_cache
  [⟨"猫", "猫", 0⟩, ⟨"が", "が", 30⟩, ⟨"好き", "好き", 30⟩, ⟨"です", "です", 30⟩]

/-- Card 1's association rows in sentence order. -/
def c8cmm : Nat → Option (List MorphEntry) := get_card_morph_map_cache
  [⟨1, "猫", "猫"⟩, ⟨1, "が", "が"⟩, ⟨1, "好き", "好き"⟩, ⟨1, "です", "です"⟩]

/-- The scenario's priority ranks 猫:5, が:0, 好き:1, です:2 (keys are
norm ++ inflected). -/
def c8mp : String → Option Nat := fun k =>
  if k = "猫猫" then some 5 else if k = "がが" then some 0
  else if k = "好き好き" then some 1 else if k = "ですです" then some 2 else none

/-- Claim C8: the scorer returns unknown list ["猫"] and difficulty
500008 = (5+0+1+2) + 1·500000, and the tag update for one unknown leaves
the note carrying the ready tag. -/
theorem c8_scenario :
    get_card_difficulty_and_unknowns c8cfg 1 c8cmm c8mc c8mp =
      some (500008, ["猫"]) ∧
    c8cfg.tag_ready ∈ update_tags c8cfg [] (["猫"] : List String).length := by decide

/-! ## Claim C10: the concatenated cache key is not injective -/

/-- Claim C10: all three cache structures key morphemes by the plain
concatenation norm ++ inflected; the distinct identities ("ab", "c") and
("a", "bc") share the key "abc", so they share one interval entry (the
second row silently overwrites the first) and one priority entry (the two
morphemes are counted as a single key). -/
theorem c10_key_collision :
    ((("ab", "c") : String × String) ≠ ("a", "bc")) ∧
    "ab" ++ "c" = "a" ++ "bc" ∧
    get_morph_cache [⟨"ab", "c", 5⟩] ("ab" ++ "c") = some 5 ∧
    get_morph_cache [⟨"ab", "c", 5⟩, ⟨"a", "bc", 7⟩] ("ab" ++ "c") = some 7 ∧
    get_morph_cache [⟨"ab", "c", 5⟩, ⟨"a", "bc", 7⟩] ("a" ++ "bc") = some 7 ∧
    get_morph_collection_priority [⟨1, "ab", "c"⟩, ⟨2, "a", "bc"⟩] ("ab" ++ "c") =
      some 0 ∧
    get_card_morph_map_cache [⟨1, "ab", "c"⟩] 1 = some [⟨"abc", "c"⟩] ∧
    get_card_morph_map_cache [⟨2, "a", "bc"⟩] 2 = some [⟨"abc", "bc"⟩] := by decide

/-! ## Highlighter verification: primitive lemmas -/

/-- Unfolded form of `spanOpen`. -/
theorem spanOpen_eq : spanOpen = '<' :: 's' :: 'p' :: 'a' :: 'n' :: [] := rfl

/-- Unfolded form of `spanClose`. -/
theorem spanClose_eq :
    spanClose = '<' :: '/' :: 's' :: 'p' :: 'a' :: 'n' :: '>' :: [] := rfl

/-- `attrPre` starts with `spanOpen`. -/
theorem attrPre_decomp : attrPre = spanOpen ++ (" morph-status=\"").data := rfl

/-- Lowercasing only moves basic latin capitals, so a character whose code is
not in the lowercase range is its own only preimage. -/
theorem lc_eq_of_not_lower {c x : Char} (hx : x.toNat < 97 ∨ 122 < x.toNat)
    (h : lc c = x) : c = x := by
  simp only [lc, Char.toLower] at h
  split at h
  · next hc =>
    exfalso
    have hv : (Char.ofNat (c.toNat + 32)).toNat = c.toNat + 32 := by
      rw [Char.ofNat, dif_pos]
      · rfl
      · exact Or.inl (by omega)
    rw [h] at hv
    omega
  · exact h

theorem lc_newline {c : Char} (h : lc c = '\n') : c = '\n' :=
  lc_eq_of_not_lower (by decide) h

theorem lc_langle {c : Char} (h : lc c = '<') : c = '<' :=
  lc_eq_of_not_lower (by decide) h

/-- A list is a literal prefix of itself extended. -/
theorem litPre_append_self (xs ys : List Char) : litPre xs (xs ++ ys) = true := by
  induction xs with
  | nil => rfl
  | cons a as ih => simp [litPre, ih]

/-- A true `litPre` exposes the prefix decomposition. -/
theorem litPre_true {xs s : List Char} (h : litPre xs s = true) :
    ∃ t, s = xs ++ t := by
  induction xs generalizing s with
  | nil => exact ⟨s, rfl⟩
  | cons a as ih =>
    cases s with
    | nil => exact absurd h (by simp [litPre])
    | cons b bs =>
      rw [litPre, Bool.and_eq_true, beq_iff_eq] at h
      obtain ⟨t, ht⟩ := ih h.2
      exact ⟨t, by simp [h.1, ht]⟩

/-- A `<`-free piece never passes the `startswith("<span")` check. -/
theorem litPre_spanOpen_plain {r : List Char} (h : '<' ∉ r) :
    litPre spanOpen r = false := by
  cases r with
  | nil => rfl
  | cons c cs =>
    have : c ≠ '<' := fun hc => h (hc ▸ List.mem_cons_self c cs)
    rw [spanOpen_eq, litPre, Bool.and_eq_false_iff]
    exact Or.inl (by simpa [beq_iff_eq] using fun hc => this hc.symm)

/-- A case-insensitive prefix stays one under extension on the right. -/
theorem ciPre_append {pat a : List Char} (b : List Char)
    (h : ciPre pat a = true) : ciPre pat (a ++ b) = true := by
  induction pat generalizing a with
  | nil => rfl
  | cons p ps ih =>
    cases a with
    | nil => exact absurd h (by simp [ciPre])
    | cons c cs =>
      rw [ciPre, Bool.and_eq_true] at h
      rw [List.cons_append, ciPre, Bool.and_eq_true]
      exact ⟨h.1, ih h.2⟩

/-- A nonempty pattern is never a prefix of the empty piece. -/
theorem ciPre_nil {pat : List Char} (h : pat ≠ []) : ciPre pat [] = false := by
  cases pat with
  | nil => exact absurd rfl h
  | cons p ps => rfl

/-- Containment as the existence of a match position. -/
theorem ciContains_iff {pat s : List Char} :
    ciContains pat s = true ↔ ∃ j, ciPre pat (s.drop j) = true := by
  induction s with
  | nil =>
    constructor
    · intro h; exact ⟨0, h⟩
    · rintro ⟨j, hj⟩; simp [List.drop_nil] at hj; exact hj
  | cons c cs ih =>
    rw [ciContains, Bool.or_eq_true, ih]
    constructor
    · rintro (h | ⟨j, hj⟩)
      · exact ⟨0, h⟩
      · exact ⟨j + 1, hj⟩
    · rintro ⟨j, hj⟩
      cases j with
      | zero => exact Or.inl hj
      | succ j => exact Or.inr ⟨j, hj⟩

/-- A contained pattern has a first (leftmost) match position. -/
theorem ciContains_first {pat s : List Char} (h : ciContains pat s = true) :
    ∃ k, ciPre pat (s.drop k) = true ∧ ∀ j, j < k → ciPre pat (s.drop j) = false := by
  induction s with
  | nil => exact ⟨0, by simpa [ciContains] using h, fun j hj => absurd hj (by omega)⟩
  | cons c cs ih =>
    rw [ciContains, Bool.or_eq_true] at h
    by_cases h0 : ciPre pat (c :: cs) = true
    · exact ⟨0, h0, fun j hj => absurd hj (by omega)⟩
    · have htail : ciContains pat cs = true := by
        rcases h with h | h
        · exact absurd h h0
        · exact h
      obtain ⟨k, hk1, hk2⟩ := ih htail
      refine ⟨k + 1, hk1, fun j hj => ?_⟩
      cases j with
      | zero => simpa using Bool.eq_false_iff.mpr h0
      | succ j => exact hk2 j (by omega)

/-- Dropping across an append. -/
theorem drop_len_append (x z : List Char) (j : Nat) :
    (x ++ z).drop (x.length + j) = z.drop j := by
  induction x with
  | nil => simp
  | cons a as ih => simp [Nat.succ_add, ih]

/-- Containment is monotone under embedding in a larger string. -/
theorem ciContains_mono {pat t : List Char} (x y : List Char)
    (h : ciContains pat t = true) : ciContains pat (x ++ t ++ y) = true := by
  obtain ⟨j, hj⟩ := ciContains_iff.mp h
  rw [ciContains_iff]
  by_cases hjt : j ≤ t.length
  · refine ⟨x.length + j, ?_⟩
    rw [List.append_assoc, drop_len_append]
    rw [List.drop_append_of_le_length hjt]
    exact ciPre_append y hj
  · have : t.drop j = [] := List.drop_eq_nil_of_le (by omega)
    rw [this] at hj
    by_cases hp : pat = []
    · exact ⟨0, by simp [hp, ciPre]⟩
    · exact absurd hj (by simp [ciPre_nil hp])

/-- Characters of a matched occurrence are case-equal to pattern characters,
so a character that is its own only case-preimage and is absent from the
pattern is absent from the occurrence. -/
theorem ciPre_not_mem_take {x : Char} {pat s : List Char}
    (hx : ∀ c : Char, lc c = lc x → c = x)
    (hp : x ∉ pat) (h : ciPre pat s = true) : x ∉ s.take pat.length := by
  induction pat generalizing s with
  | nil => simp
  | cons p ps ih =>
    cases s with
    | nil => simp
    | cons c cs =>
      rw [ciPre, Bool.and_eq_true, beq_iff_eq] at h
      intro hmem
      rw [List.length_cons, List.take_succ_cons] at hmem
      rcases List.mem_cons.mp hmem with heq | hmem
      · subst heq
        have hpx : p = x := hx p h.1
        exact hp (by rw [← hpx]; exact List.mem_cons_self p ps)
      · exact ih (fun hps => hp (List.mem_cons_of_mem p hps)) h.2 hmem

/-! ## Highlighter verification: the splitter -/

/-- The lazy scan finds the first close after a markup-free middle. -/
theorem scanToClose_append (mid : List Char) (rest : List Char)
    (h1 : '<' ∉ mid) (h2 : '\n' ∉ mid) :
    scanToClose (mid ++ spanClose ++ rest) = some (mid, rest) := by
  induction mid with
  | nil =>
    have hcons : spanClose ++ rest = '<' :: ('/' :: 's' :: 'p' :: 'a' :: 'n' :: '>' :: rest) := by
      rw [spanClose_eq]; rfl
    rw [List.nil_append, hcons, scanToClose]
    rw [← hcons, if_pos (litPre_append_self spanClose rest)]
    simp [spanClose_eq]
  | cons c cs ih =>
    have hc1 : c ≠ '<' := fun hc => h1 (hc ▸ List.mem_cons_self c cs)
    have hc2 : c ≠ '\n' := fun hc => h2 (hc ▸ List.mem_cons_self c cs)
    have hcs1 : '<' ∉ cs := fun hcs => h1 (List.mem_cons_of_mem c hcs)
    have hcs2 : '\n' ∉ cs := fun hcs => h2 (List.mem_cons_of_mem c hcs)
    rw [List.cons_append, List.cons_append, scanToClose]
    have hlit : litPre spanClose (c :: (cs ++ spanClose ++ rest)) = false := by
      rw [spanClose_eq, litPre, Bool.and_eq_false_iff]
      exact Or.inl (by simpa [beq_iff_eq] using fun hc => hc1 hc.symm)
    rw [if_neg (by simpa using hlit), if_neg hc2, ih hcs1 hcs2]

/-- A successful lazy scan is exactly a close-terminated decomposition. -/
theorem scanToClose_some {l mid rest : List Char}
    (h : scanToClose l = some (mid, rest)) : l = mid ++ spanClose ++ rest := by
  induction l generalizing mid rest with
  | nil => exact absurd h (by rw [scanToClose]; simp)
  | cons c cs ih =>
    rw [scanToClose] at h
    by_cases hlit : litPre spanClose (c :: cs) = true
    · rw [if_pos hlit] at h
      obtain ⟨t, ht⟩ := litPre_true hlit
      rw [Option.some.injEq, Prod.mk.injEq] at h
      rw [← h.1, ← h.2, ht]
      simp [spanClose_eq]
    · rw [if_neg hlit] at h
      by_cases hnl : c = '\n'
      · rw [if_pos hnl] at h; exact absurd h (by simp)
      · rw [if_neg hnl] at h
        cases hrec : scanToClose cs with
        | none => rw [hrec] at h; exact absurd h (by simp)
        | some p =>
          obtain ⟨mid', rest'⟩ := p
          rw [hrec] at h
          rw [Option.some.injEq, Prod.mk.injEq] at h
          rw [← h.1, ← h.2]
          have := ih hrec
          rw [List.cons_append, List.cons_append, ← this]

/-- The splitter walks over a markup-free run one character at a time. -/
theorem splitGo_plain (r : List Char) (h : '<' ∉ r) :
    ∀ (fuel : Nat) (acc s : List Char),
      splitGo (r.length + fuel) acc (r ++ s) = splitGo fuel (r.reverse ++ acc) s := by
  induction r with
  | nil => intro fuel acc s; simp
  | cons c cs ih =>
    intro fuel acc s
    have hc : c ≠ '<' := fun hc => h (hc ▸ List.mem_cons_self c cs)
    have hcs : '<' ∉ cs := fun hm => h (List.mem_cons_of_mem c hm)
    have hlen : (c :: cs).length + fuel = (cs.length + fuel) + 1 := by
      simp [List.length_cons]; omega
    rw [hlen, List.cons_append, splitGo]
    have hlit : litPre spanOpen (c :: (cs ++ s)) = false := by
      rw [spanOpen_eq, litPre, Bool.and_eq_false_iff]
      exact Or.inl (by simpa [beq_iff_eq] using fun heq => hc heq.symm)
    rw [if_neg (by simp [hlit])]
    rw [ih hcs fuel (c :: acc) s]
    simp

/-- The splitter consumes fuel but does not depend on it, given enough. -/
theorem splitGo_fuel :
    ∀ (f1 : Nat) (s : List Char) (f2 : Nat) (acc : List Char),
      s.length ≤ f1 → s.length ≤ f2 → splitGo f1 acc s = splitGo f2 acc s := by
  intro f1
  induction f1 with
  | zero =>
    intro s f2 acc h1 _
    have : s = [] := List.eq_nil_of_length_eq_zero (by omega)
    subst this
    cases f2 with
    | zero => rfl
    | succ f2 => simp [splitGo]
  | succ f1 ih =>
    intro s f2 acc h1 h2
    cases s with
    | nil =>
      cases f2 with
      | zero => simp [splitGo]
      | succ f2 => rfl
    | cons c cs =>
      have hf2 : ∃ f2', f2 = f2' + 1 := ⟨f2 - 1, by simp at h2; omega⟩
      obtain ⟨f2', rfl⟩ := hf2
      rw [splitGo, splitGo]
      by_cases hlit : litPre spanOpen (c :: cs) = true
      · rw [if_pos hlit, if_pos hlit]
        cases hscan : scanToClose ((c :: cs).drop spanOpen.length) with
        | none =>
          simp only []
          exact ih cs f2' (c :: acc) (by simp at h1 ⊢; omega) (by simp at h2 ⊢; omega)
        | some p =>
          obtain ⟨mid, rest⟩ := p
          simp only []
          have hb : rest.length + 12 ≤ (c :: cs).length := by
            have hd := congrArg List.length (scanToClose_some hscan)
            rw [List.length_drop] at hd
            simp [spanClose_eq, spanOpen_eq] at hd
            obtain ⟨t, ht⟩ := litPre_true hlit
            have hts := congrArg List.length ht
            simp [spanOpen_eq] at hts
            simp
            omega
          rw [ih rest f2' [] (by simp at h1 hb; omega) (by simp at h2 hb; omega)]
      · rw [if_neg hlit, if_neg hlit]
        exact ih cs f2' (c :: acc) (by simp at h1 ⊢; omega) (by simp at h2 ⊢; omega)

/-- The splitter recognizes a well-formed unit at the head and captures it. -/
theorem splitGo_unit (status o rest : List Char) (acc : List Char) (fuel : Nat)
    (hst1 : '<' ∉ status) (hst2 : '\n' ∉ status)
    (ho1 : '<' ∉ o) (ho2 : '\n' ∉ o) (hfuel : rest.length ≤ fuel) :
    splitGo (fuel + 1) acc (mkUnit status o ++ rest) =
      acc.reverse :: mkUnit status o :: splitGo rest.length [] rest := by
  have hmid : mkUnit status o ++ rest =
      spanOpen ++ (((" morph-status=\"").data ++ status ++ attrPost ++ o) ++
        (spanClose ++ rest)) := by
    rw [mkUnit, attrPre_decomp]; simp
  have hmid2 : mkUnit status o ++ rest = '<' :: ('s' :: 'p' :: 'a' :: 'n' ::
      ((((" morph-status=\"").data ++ status ++ attrPost ++ o) ++
        (spanClose ++ rest)))) := by
    rw [hmid, spanOpen_eq]; rfl
  rw [hmid2, splitGo]
  have hlit : litPre spanOpen ('<' :: ('s' :: 'p' :: 'a' :: 'n' ::
      ((((" morph-status=\"").data ++ status ++ attrPost ++ o) ++
        (spanClose ++ rest))))) = true := by
    rw [← hmid2, hmid]
    exact litPre_append_self spanOpen _
  rw [if_pos hlit]
  have hdrop : ('<' :: ('s' :: 'p' :: 'a' :: 'n' ::
      ((((" morph-status=\"").data ++ status ++ attrPost ++ o) ++
        (spanClose ++ rest))))).drop spanOpen.length =
      ((" morph-status=\"").data ++ status ++ attrPost ++ o) ++ spanClose ++ rest := by
    simp [spanOpen_eq]
  rw [hdrop]
  have hmemmid1 : '<' ∉ (" morph-status=\"").data ++ status ++ attrPost ++ o := by
    intro hm
    simp only [List.mem_append] at hm
    rcases hm with ((hm | hm) | hm) | hm
    · revert hm; decide
    · exact hst1 hm
    · revert hm; rw [attrPost]; decide
    · exact ho1 hm
  have hmemmid2 : '\n' ∉ (" morph-status=\"").data ++ status ++ attrPost ++ o := by
    intro hm
    simp only [List.mem_append] at hm
    rcases hm with ((hm | hm) | hm) | hm
    · revert hm; decide
    · exact hst2 hm
    · revert hm; rw [attrPost]; decide
    · exact ho2 hm
  rw [scanToClose_append _ rest hmemmid1 hmemmid2]
  simp only []
  have hpiece : spanOpen ++ ((" morph-status=\"").data ++ status ++ attrPost ++ o) ++
      spanClose = mkUnit status o := by
    rw [mkUnit, attrPre_decomp]; simp
  rw [hpiece]
  rw [splitGo_fuel fuel rest rest.length [] hfuel (le_refl _)]

/-- `re.split` of a markup-free piece is that one piece. -/
theorem splitSpans_plain (r : List Char) (h : '<' ∉ r) : splitSpans r = [r] := by
  rw [splitSpans]
  have h0 : r.length = r.length + 0 := by omega
  have h1 : r = r ++ [] := by simp
  rw [h0, show splitGo (r.length + 0) [] r = splitGo (r.length + 0) [] (r ++ []) by rw [← h1]]
  rw [splitGo_plain r h 0 [] []]
  simp [splitGo]

/-- `re.split` of `plain ++ unit ++ rest` yields the plain piece, the
captured unit, and the split of the rest. -/
theorem splitSpans_cons (r status o rest : List Char)
    (hr : '<' ∉ r) (hst1 : '<' ∉ status) (hst2 : '\n' ∉ status)
    (ho1 : '<' ∉ o) (ho2 : '\n' ∉ o) :
    splitSpans (r ++ mkUnit status o ++ rest) =
      r :: mkUnit status o :: splitSpans rest := by
  rw [splitSpans]
  have hlen : (r ++ mkUnit status o ++ rest).length =
      r.length + ((mkUnit status o).length + rest.length) := by simp
  have hassoc : r ++ mkUnit status o ++ rest = r ++ (mkUnit status o ++ rest) := by simp
  rw [hlen, hassoc, splitGo_plain r hr _ [] _]
  have hu : (mkUnit status o).length + rest.length =
      ((mkUnit status o).length - 1 + rest.length) + 1 := by
    have : 1 ≤ (mkUnit status o).length := by
      rw [mkUnit, attrPre_decomp]; simp [spanOpen_eq]
    omega
  rw [hu, splitGo_unit status o rest _ _ hst1 hst2 ho1 ho2 (by omega)]
  rw [List.append_nil, List.reverse_reverse, splitSpans]

/-! ## Highlighter verification: substitution -/

theorem isEmpty_false_of_ne_nil {pat : List Char} (hp : pat ≠ []) :
    ¬ (pat.isEmpty = true) := by
  cases pat with
  | nil => exact absurd rfl hp
  | cons p ps => simp

/-- For a nonempty pattern, `ciSubF` ignores its fuel past the length. -/
theorem ciSubF_fuel (st pat : List Char) (hp : pat ≠ []) :
    ∀ (f1 : Nat) (s : List Char) (f2 : Nat), s.length ≤ f1 → s.length ≤ f2 →
      ciSubF st pat f1 s = ciSubF st pat f2 s := by
  intro f1
  induction f1 with
  | zero =>
    intro s f2 h1 _
    have hs : s = [] := List.eq_nil_of_length_eq_zero (by omega)
    subst hs
    cases f2 with
    | zero => rfl
    | succ f2 => simp [ciSubF, isEmpty_false_of_ne_nil hp]
  | succ f1 ih =>
    intro s f2 h1 h2
    cases s with
    | nil =>
      cases f2 with
      | zero => simp [ciSubF, isEmpty_false_of_ne_nil hp]
      | succ f2 => rfl
    | cons c cs =>
      obtain ⟨f2', rfl⟩ : ∃ f2', f2 = f2' + 1 := ⟨f2 - 1, by simp at h2; omega⟩
      rw [ciSubF, ciSubF]
      have hl : 1 ≤ pat.length := List.length_pos.mpr hp
      rw [if_neg (isEmpty_false_of_ne_nil hp), if_neg (isEmpty_false_of_ne_nil hp)]
      by_cases hm : ciPre pat (c :: cs) = true
      · rw [if_pos hm, if_pos hm]
        congr 1
        refine ih _ _ ?_ ?_
        · rw [List.length_drop]; simp at h1 ⊢; omega
        · rw [List.length_drop]; simp at h2 ⊢; omega
      · rw [if_neg hm, if_neg hm]
        congr 1
        exact ih cs f2' (by simp at h1 ⊢; omega) (by simp at h2 ⊢; omega)

/-- `re.sub` is the identity on a piece without an occurrence. -/
theorem ciSubF_of_not_contains (st pat : List Char) (hp : pat ≠ []) :
    ∀ (fuel : Nat) (s : List Char), ciContains pat s = false →
      ciSubF st pat fuel s = s := by
  intro fuel
  induction fuel with
  | zero => intro s _; rfl
  | succ fuel ih =>
    intro s hc
    cases s with
    | nil => simp [ciSubF, isEmpty_false_of_ne_nil hp]
    | cons c cs =>
      rw [ciContains, Bool.or_eq_false_iff] at hc
      rw [ciSubF, if_neg (isEmpty_false_of_ne_nil hp), if_neg (by simp [hc.1]),
        ih cs hc.2]

theorem ciSub_of_not_contains (st pat : List Char) (hp : pat ≠ [])
    {s : List Char} (h : ciContains pat s = false) : ciSub st pat s = s :=
  ciSubF_of_not_contains st pat hp _ s h

/-- `re.sub` walks to the leftmost occurrence, wraps it, and continues after
it. -/
theorem ciSub_first_match (st pat : List Char) (hp : pat ≠ []) :
    ∀ (k : Nat) (s : List Char),
      (∀ j, j < k → ciPre pat (s.drop j) = false) →
      ciPre pat (s.drop k) = true →
      ciSub st pat s = s.take k ++ mkUnit st ((s.drop k).take pat.length) ++
        ciSub st pat ((s.drop k).drop pat.length) := by
  intro k
  induction k with
  | zero =>
    intro s _ hk
    rw [List.drop_zero] at hk
    cases s with
    | nil => exact absurd hk (by simp [ciPre_nil hp])
    | cons c cs =>
      rw [ciSub, ciSubF, if_neg (isEmpty_false_of_ne_nil hp), if_pos hk]
      rw [List.take_zero, List.drop_zero, List.nil_append]
      congr 1
      refine ciSubF_fuel st pat hp _ _ _ ?_ ?_
      · rw [List.length_drop]; omega
      · omega
  | succ k ih =>
    intro s hmin hk
    cases s with
    | nil => rw [List.drop_nil] at hk; exact absurd hk (by simp [ciPre_nil hp])
    | cons c cs =>
      have h0 : ciPre pat (c :: cs) = false := by
        have := hmin 0 (by omega)
        rwa [List.drop_zero] at this
      rw [ciSub, ciSubF, if_neg (isEmpty_false_of_ne_nil hp), if_neg (by simp [h0])]
      have hrec := ih cs
        (fun j hj => by
          have := hmin (j + 1) (by omega)
          rwa [List.drop_succ_cons] at this)
        (by rwa [List.drop_succ_cons] at hk)
      rw [List.drop_succ_cons, List.take_succ_cons]
      rw [ciSubF_fuel st pat hp ((c :: cs).length) cs (cs.length + 1) (by simp) (by omega)]
      rw [show ciSubF st pat (cs.length + 1) cs = ciSub st pat cs from rfl, hrec]
      simp

/-! ## Highlighter verification: the wrapped-string invariant -/

/-- No case-insensitive occurrence of any of the given patterns. -/
def NoOcc (ps : List (List Char)) (r : List Char) : Prop :=
  ∀ p ∈ ps, ciContains p r = false

/-- A string in highlighting normal form: markup-free runs (satisfying `R`)
alternating with well-formed replacement units. -/
inductive Wrapped (R : List Char → Prop) : List Char → Prop
  | plain (r : List Char) : '<' ∉ r → R r → Wrapped R r
  | cons (r status o rest : List Char) :
      '<' ∉ r → R r → '<' ∉ status → '\n' ∉ status → '<' ∉ o → '\n' ∉ o →
      Wrapped R rest → Wrapped R (r ++ mkUnit status o ++ rest)

theorem NoOcc_nil (r : List Char) : NoOcc [] r :=
  fun p hp => absurd hp (List.not_mem_nil p)

theorem ciContains_nil {pat : List Char} (hp : pat ≠ []) :
    ciContains pat [] = false := by
  rw [ciContains]; exact ciPre_nil hp

/-- `NoOcc` restricts to contiguous infixes. -/
theorem NoOcc_infix (x y : List Char) {ps : List (List Char)} {t : List Char}
    (h : NoOcc ps (x ++ t ++ y)) : NoOcc ps t := by
  intro p hp
  cases hct : ciContains p t with
  | false => rfl
  | true => exact absurd (ciContains_mono x y hct) (by simpa using h p hp)

/-- A matched pattern needs at least its own length of input. -/
theorem ciPre_length {pat s : List Char} (h : ciPre pat s = true) :
    pat.length ≤ s.length := by
  induction pat generalizing s with
  | nil => simp
  | cons p ps ih =>
    cases s with
    | nil => exact absurd h (by simp [ciPre])
    | cons c cs =>
      rw [ciPre, Bool.and_eq_true] at h
      simpa using ih h.2

/-- The heart of the invariant: substituting a well-formed pattern into a
markup-free run produces a wrapped string whose runs avoid both the old
patterns and the new one. -/
theorem Wrapped_ciSub (st pat : List Char) (ps : List (List Char))
    (hp1 : pat ≠ []) (hp3 : '\n' ∉ pat) (hst1 : '<' ∉ st) (hst2 : '\n' ∉ st) :
    ∀ (n : Nat) (r : List Char), r.length ≤ n → '<' ∉ r → NoOcc ps r →
      Wrapped (NoOcc (pat :: ps)) (ciSub st pat r) := by
  intro n
  induction n with
  | zero =>
    intro r hn hr hocc
    have hnil : r = [] := List.eq_nil_of_length_eq_zero (by omega)
    subst hnil
    rw [ciSub_of_not_contains st pat hp1 (ciContains_nil hp1)]
    refine Wrapped.plain [] (by simp) ?_
    intro p hp
    rcases List.mem_cons.mp hp with rfl | hp
    · exact ciContains_nil hp1
    · exact hocc p hp
  | succ n ih =>
    intro r hn hr hocc
    cases hct : ciContains pat r with
    | false =>
      rw [ciSub_of_not_contains st pat hp1 hct]
      refine Wrapped.plain r hr ?_
      intro p hp
      rcases List.mem_cons.mp hp with rfl | hp
      · exact hct
      · exact hocc p hp
    | true =>
      obtain ⟨k, hk1, hk2⟩ := ciContains_first hct
      rw [ciSub_first_match st pat hp1 k r hk2 hk1]
      have hplen : pat.length ≤ r.length - k := by
        have := ciPre_length hk1
        rwa [List.length_drop] at this
      have hkfit : k < r.length := by
        by_contra hge
        rw [List.drop_eq_nil_of_le (by omega)] at hk1
        exact absurd hk1 (by simp [ciPre_nil hp1])
      have hnlc : ∀ c : Char, lc c = lc '\n' → c = '\n' := by
        intro c hc
        exact lc_newline (by rwa [show lc '\n' = '\n' from by decide] at hc)
      refine Wrapped.cons (r.take k) st ((r.drop k).take pat.length) _
        (fun hm => hr (List.mem_of_mem_take hm)) ?_ hst1 hst2
        (fun hm => hr (List.mem_of_mem_drop (List.mem_of_mem_take hm)))
        (ciPre_not_mem_take hnlc hp3 hk1) ?_
      · -- the run before the leftmost occurrence has no occurrences at all
        intro p hp
        rcases List.mem_cons.mp hp with rfl | hp
        · cases hcc : ciContains p (r.take k) with
          | false => rfl
          | true =>
            exfalso
            obtain ⟨j, hj⟩ := ciContains_iff.mp hcc
            have hjk : j < (r.take k).length := by
              by_contra hge
              rw [List.drop_eq_nil_of_le (by omega)] at hj
              exact absurd hj (by simp [ciPre_nil hp1])
            have hjk' : j < k := by
              rw [List.length_take] at hjk; omega
            have hpre : ciPre p (r.drop j) = true := by
              have hsplit : r.drop j = (r.take k).drop j ++ r.drop k := by
                conv_lhs => rw [← List.take_append_drop k r]
                rw [List.drop_append_of_le_length (by rw [List.length_take]; omega)]
              rw [hsplit]
              exact ciPre_append _ hj
            exact absurd hpre (by simp [hk2 j hjk'])
        · refine NoOcc_infix [] (r.drop k) ?_ p hp
          rw [List.nil_append, List.take_append_drop]
          exact hocc
      · -- tail recursion on the remainder after the wrapped occurrence
        refine ih ((r.drop k).drop pat.length) ?_
          (fun hm => hr (List.mem_of_mem_drop (List.mem_of_mem_drop hm))) ?_
        · rw [List.length_drop, List.length_drop]
          have hp0 : 1 ≤ pat.length := List.length_pos.mpr hp1
          omega
        · refine NoOcc_infix (r.take k ++ (r.drop k).take pat.length) [] ?_
          rw [List.append_nil, List.append_assoc, List.take_append_drop,
            List.take_append_drop]
          exact hocc

/-- Attaching a well-formed unit between two wrapped strings. -/
theorem Wrapped.append_unit {R : List Char → Prop} {a b status o : List Char}
    (ha : Wrapped R a) (h1 : '<' ∉ status) (h2 : '\n' ∉ status)
    (h3 : '<' ∉ o) (h4 : '\n' ∉ o) (hb : Wrapped R b) :
    Wrapped R (a ++ mkUnit status o ++ b) := by
  induction ha with
  | plain r hr hRr => exact Wrapped.cons r status o b hr hRr h1 h2 h3 h4 hb
  | cons r st1 o1 rest hr hRr hs1 hs2 ho1 ho2 hrest ih =>
    have hre : (r ++ mkUnit st1 o1 ++ rest) ++ mkUnit status o ++ b =
        r ++ mkUnit st1 o1 ++ (rest ++ mkUnit status o ++ b) := by simp
    rw [hre]
    exact Wrapped.cons r st1 o1 _ hr hRr hs1 hs2 ho1 ho2 ih

/-! ## Highlighter verification: `non_span_sub` over wrapped strings -/

/-- `non_span_sub` on a markup-free piece is plain substitution. -/
theorem non_span_sub_plain_piece (st pat r : List Char) (hr : '<' ∉ r) :
    non_span_sub st pat r = ciSub st pat r := by
  rw [non_span_sub, splitSpans_plain r hr]
  simp [litPre_spanOpen_plain hr]

/-- Every replacement unit passes the `startswith("<span")` check. -/
theorem litPre_spanOpen_unit (status o : List Char) :
    litPre spanOpen (mkUnit status o) = true := by
  rw [mkUnit, attrPre_decomp]
  rw [show (spanOpen ++ (" morph-status=\"").data) ++ status ++ attrPost ++ o ++
      spanClose =
      spanOpen ++ ((" morph-status=\"").data ++ status ++ attrPost ++ o ++ spanClose)
    by simp]
  exact litPre_append_self _ _

/-- `non_span_sub` substitutes in the leading run, passes the unit through
verbatim, and recurses structurally on the rest. -/
theorem non_span_sub_cons (st pat r status o rest : List Char)
    (hr : '<' ∉ r) (hs1 : '<' ∉ status) (hs2 : '\n' ∉ status)
    (ho1 : '<' ∉ o) (ho2 : '\n' ∉ o) :
    non_span_sub st pat (r ++ mkUnit status o ++ rest) =
      ciSub st pat r ++ mkUnit status o ++ non_span_sub st pat rest := by
  rw [non_span_sub, splitSpans_cons r status o rest hr hs1 hs2 ho1 ho2]
  rw [List.map_cons, List.map_cons, List.flatten_cons, List.flatten_cons]
  rw [if_neg (by simp [litPre_spanOpen_plain hr]), if_pos (litPre_spanOpen_unit status o)]
  rw [non_span_sub]
  simp [List.append_assoc]

/-- Substituting a pattern none of whose occurrences survive in the runs of a
wrapped string changes nothing: span regions are skipped and runs have no
match. -/
theorem non_span_sub_id {R : List Char → Prop} (st pat : List Char)
    (hpat : pat ≠ []) (hR : ∀ r, R r → ciContains pat r = false)
    {s : List Char} (hw : Wrapped R s) : non_span_sub st pat s = s := by
  induction hw with
  | plain r hr hRr =>
    rw [non_span_sub_plain_piece st pat r hr,
      ciSub_of_not_contains st pat hpat (hR r hRr)]
  | cons r status o rest hr hRr hs1 hs2 ho1 ho2 hrest ih =>
    rw [non_span_sub_cons st pat r status o rest hr hs1 hs2 ho1 ho2,
      ciSub_of_not_contains st pat hpat (hR r hRr), ih]

/-- One substitution step preserves the wrapped invariant and adds the new
pattern to the set of patterns absent from the runs. -/
theorem non_span_sub_wrapped (st pat : List Char) (ps : List (List Char))
    (hp1 : pat ≠ []) (hp3 : '\n' ∉ pat) (hst1 : '<' ∉ st) (hst2 : '\n' ∉ st)
    {s : List Char} (hw : Wrapped (NoOcc ps) s) :
    Wrapped (NoOcc (pat :: ps)) (non_span_sub st pat s) := by
  induction hw with
  | plain r hr hRr =>
    rw [non_span_sub_plain_piece st pat r hr]
    exact Wrapped_ciSub st pat ps hp1 hp3 hst1 hst2 r.length r (le_refl _) hr hRr
  | cons r status o rest hr hRr hs1 hs2 ho1 ho2 hrest ih =>
    rw [non_span_sub_cons st pat r status o rest hr hs1 hs2 ho1 ho2]
    exact Wrapped.append_unit
      (Wrapped_ciSub st pat ps hp1 hp3 hst1 hst2 r.length r (le_refl _) hr hRr)
      hs1 hs2 ho1 ho2 ih

/-- The three maturity class names carry no markup characters. -/
theorem morph_status_of_wf (am_config : AmConfig) (hi : Nat) :
    '<' ∉ morph_status_of am_config hi ∧ '\n' ∉ morph_status_of am_config hi := by
  rw [morph_status_of]
  split
  · exact ⟨by decide, by decide⟩
  · split
    · exact ⟨by decide, by decide⟩
    · exact ⟨by decide, by decide⟩

/-! ## Highlighter verification: the fold over morphs -/

/-- A completed first pass leaves a wrapped string whose runs contain no
occurrence of any processed surface form. -/
theorem hl_fold_wrapped (am_config : AmConfig) (morph_cache : String → Option Nat) :
    ∀ (ms : List MorphEntry) (ps : List (List Char)) (s r : List Char),
      (∀ m ∈ ms, m.inflected_morph.data ≠ [] ∧ '\n' ∉ m.inflected_morph.data) →
      (∀ p ∈ ps, p ≠ []) →
      Wrapped (NoOcc ps) s →
      List.foldlM (hlStep am_config morph_cache) s ms = some r →
      ∃ ps', Wrapped (NoOcc ps') r ∧ (∀ p ∈ ps', p ≠ []) ∧
        (∀ p ∈ ps, p ∈ ps') ∧ (∀ m ∈ ms, m.inflected_morph.data ∈ ps') := by
  intro ms
  induction ms with
  | nil =>
    intro ps s r _ hps hw h
    rw [List.foldlM_nil] at h
    have hsr : s = r := by simpa using h
    exact ⟨ps, hsr ▸ hw, hps, fun p hp => hp, by simp⟩
  | cons m ms ih =>
    intro ps s r hms hps hw h
    rw [List.foldlM_cons] at h
    obtain ⟨hne, hnl⟩ := hms m (List.mem_cons_self m ms)
    cases hmc : morph_cache m.entire_morph with
    | none => rw [hlStep, hmc] at h; exact absurd h (by simp)
    | some hi =>
      rw [hlStep, hmc] at h
      simp only [Option.some_bind] at h
      have hwf := morph_status_of_wf am_config hi
      have hw' := non_span_sub_wrapped (morph_status_of am_config hi)
        m.inflected_morph.data ps hne hnl hwf.1 hwf.2 hw
      obtain ⟨ps', hwr, hne', hsub', hmem'⟩ := ih (m.inflected_morph.data :: ps) _ r
        (fun m' hm' => hms m' (List.mem_cons_of_mem m hm'))
        (fun p hp => by
          rcases List.mem_cons.mp hp with rfl | hp
          · exact hne
          · exact hps p hp)
        hw' h
      refine ⟨ps', hwr, hne', fun p hp => hsub' p (List.mem_cons_of_mem _ hp), ?_⟩
      intro m' hm'
      rcases List.mem_cons.mp hm' with rfl | hm'
      · exact hsub' m'.inflected_morph.data (List.mem_cons_self _ ps)
      · exact hmem' m' hm'

/-- A completed pass records that every morph's interval lookup succeeded. -/
theorem hl_fold_lookups (am_config : AmConfig) (morph_cache : String → Option Nat) :
    ∀ (ms : List MorphEntry) (s r : List Char),
      List.foldlM (hlStep am_config morph_cache) s ms = some r →
      ∀ m ∈ ms, (morph_cache m.entire_morph).isSome := by
  intro ms
  induction ms with
  | nil => intro s r _ m hm; exact absurd hm (List.not_mem_nil m)
  | cons m ms ih =>
    intro s r h m' hm'
    rw [List.foldlM_cons] at h
    cases hmc : morph_cache m.entire_morph with
    | none => rw [hlStep, hmc] at h; exact absurd h (by simp)
    | some hi =>
      rw [hlStep, hmc] at h
      simp only [Option.some_bind] at h
      rcases List.mem_cons.mp hm' with rfl | hm'
      · simp [hmc]
      · exact ih _ r h m' hm'

/-- On a wrapped string whose runs avoid every surface form, the whole fold
is the identity. -/
theorem hl_fold_id (am_config : AmConfig) (morph_cache : String → Option Nat) :
    ∀ (ms : List MorphEntry) (ps' : List (List Char)) (r : List Char),
      (∀ m ∈ ms, (morph_cache m.entire_morph).isSome ∧
        m.inflected_morph.data ≠ [] ∧ m.inflected_morph.data ∈ ps') →
      Wrapped (NoOcc ps') r →
      List.foldlM (hlStep am_config morph_cache) r ms = some r := by
  intro ms
  induction ms with
  | nil => intro ps' r _ _; rw [List.foldlM_nil]; rfl
  | cons m ms ih =>
    intro ps' r hms hw
    obtain ⟨hsome, hne, hmem⟩ := hms m (List.mem_cons_self m ms)
    rw [List.foldlM_cons]
    obtain ⟨hi, hhi⟩ := Option.isSome_iff_exists.mp hsome
    rw [hlStep, hhi]
    simp only [Option.some_bind]
    rw [non_span_sub_id _ _ hne (fun rr hrr => hrr _ hmem) hw]
    exact ih ps' r (fun m' hm' => hms m' (List.mem_cons_of_mem m hm')) hw

/-- Insertion preserves membership up to permutation. -/
theorem insertByLenDesc_perm (m : MorphEntry) (l : List MorphEntry) :
    List.Perm (insertByLenDesc m l) (m :: l) := by
  induction l with
  | nil => simp [insertByLenDesc]
  | cons x xs ih =>
    rw [insertByLenDesc]
    split
    · exact ((ih.cons x).trans (List.Perm.swap m x xs))
    · exact List.Perm.refl _

/-- The stable length-descending sort is a permutation. -/
theorem sortMorphsDesc_perm (l : List MorphEntry) :
    List.Perm (sortMorphsDesc l) l := by
  suffices h : ∀ acc, List.Perm
      (List.foldl (fun acc m => insertByLenDesc m acc) acc l) (acc ++ l) by
    simpa using h []
  induction l with
  | nil => intro acc; simp
  | cons c cs ih =>
    intro acc
    simp only [List.foldl_cons]
    have h1 := ih (insertByLenDesc c acc)
    have h2 : List.Perm (insertByLenDesc c acc ++ cs) ((c :: acc) ++ cs) :=
      List.Perm.append_right cs (insertByLenDesc_perm c acc)
    have h3 : List.Perm ((c :: acc) ++ cs) (acc ++ c :: cs) :=
      (@List.perm_middle MorphEntry c acc cs).symm
    exact (h1.trans h2).trans h3

/-- Insertion preserves the length-descending pairwise order. -/
theorem insertByLenDesc_pairwise {m : MorphEntry} {l : List MorphEntry}
    (h : List.Pairwise
      (fun a b => b.inflected_morph.length ≤ a.inflected_morph.length) l) :
    List.Pairwise (fun a b => b.inflected_morph.length ≤ a.inflected_morph.length)
      (insertByLenDesc m l) := by
  induction l with
  | nil => simp [insertByLenDesc]
  | cons x xs ih =>
    rw [List.pairwise_cons] at h
    rw [insertByLenDesc]
    split
    · next hle =>
      rw [List.pairwise_cons]
      refine ⟨fun b hb => ?_, ih h.2⟩
      rcases List.mem_cons.mp ((insertByLenDesc_perm m xs).mem_iff.mp hb) with rfl | hb
      · exact hle
      · exact h.1 b hb
    · next hgt =>
      rw [List.pairwise_cons]
      refine ⟨fun b hb => ?_, List.pairwise_cons.mpr h⟩
      rcases List.mem_cons.mp hb with rfl | hb
      · omega
      · have := h.1 b hb; omega

/-- The sort used by `highlight_text` really puts longest surface forms
first. -/
theorem sortMorphsDesc_pairwise (l : List MorphEntry) :
    List.Pairwise (fun a b => b.inflected_morph.length ≤ a.inflected_morph.length)
      (sortMorphsDesc l) := by
  suffices h : ∀ acc, List.Pairwise
      (fun a b => b.inflected_morph.length ≤ a.inflected_morph.length) acc →
      List.Pairwise (fun a b => b.inflected_morph.length ≤ a.inflected_morph.length)
        (List.foldl (fun acc m => insertByLenDesc m acc) acc l) by
    exact h [] (by simp)
  induction l with
  | nil => intro acc hacc; simpa using hacc
  | cons c cs ih =>
    intro acc hacc
    simp only [List.foldl_cons]
    exact ih _ (insertByLenDesc_pairwise hacc)

/-- The span pieces of a wrapped string are exactly well-formed units with
markup-free interiors. -/
theorem Wrapped_pieces {R : List Char → Prop} {s : List Char} (hw : Wrapped R s) :
    ∀ piece ∈ splitSpans s, litPre spanOpen piece = true →
      ∃ status o, piece = mkUnit status o ∧ '<' ∉ o := by
  induction hw with
  | plain r hr hRr =>
    rw [splitSpans_plain r hr]
    intro piece hp hlit
    rw [List.mem_singleton.mp hp] at hlit
    exact absurd hlit (by simp [litPre_spanOpen_plain hr])
  | cons r status o rest hr hRr hs1 hs2 ho1 ho2 hrest ih =>
    rw [splitSpans_cons r status o rest hr hs1 hs2 ho1 ho2]
    intro piece hp hlit
    rcases List.mem_cons.mp hp with rfl | hp
    · exact absurd hlit (by simp [litPre_spanOpen_plain hr])
    · rcases List.mem_cons.mp hp with rfl | hp
      · exact ⟨status, o, rfl, ho1⟩
      · exact ih piece hp hlit

/-! ## Claim C6: highlighting idempotence -/

/-- Fixture for C6's counterexample: an empty surface form. -/
def c6cfg : AmConfig := ⟨false, true, 21, "k", "r", "n"⟩

def c6mc : String → Option Nat := fun k => if k = "ee" then some 0 else none

def c6ms : List MorphEntry := [⟨"ee", ""⟩]

/-- The unit the empty pattern inserts. -/
def c6unit : List Char := "<span morph-status=\"unknown\"></span>".data

/-- Claim C6 is false as stated: with an empty surface form the first
application produces one empty-bodied span and the second application
wraps the two empty non-span pieces around it again, tripling the output
instead of fixing it. -/
theorem c6_counterexample :
    highlight_text c6cfg c6ms c6mc [] = some c6unit ∧
    highlight_text c6cfg c6ms c6mc c6unit = some (c6unit ++ c6unit ++ c6unit) ∧
    c6unit ++ c6unit ++ c6unit ≠ c6unit := by decide

/-- Claim C6 (amended): for a card whose surface forms are nonempty,
newline-free and free of regex metacharacters (`regexSpecials`, the
fragment on which the model's literal matching agrees with the code's
interpolated `re.sub`), and a source text with no `<` character, a second
application of `highlight_text` returns its input unchanged: every piece of
text the first pass wrapped sits inside a span and is passed through, and
the remaining runs contain no further occurrence of any surface form. -/
theorem c6_amended (am_config : AmConfig) (card_morphs : List MorphEntry)
    (morph_cache : String → Option Nat) (t r : List Char)
    (hms : ∀ m ∈ card_morphs, m.inflected_morph.data ≠ [] ∧
      '\n' ∉ m.inflected_morph.data ∧
      ∀ c ∈ m.inflected_morph.data, c ∉ regexSpecials)
    (ht : '<' ∉ t)
    (h : highlight_text am_config card_morphs morph_cache t = some r) :
    highlight_text am_config card_morphs morph_cache r = some r := by
  rw [highlight_text] at h ⊢
  have hms' : ∀ m ∈ sortMorphsDesc card_morphs,
      m.inflected_morph.data ≠ [] ∧ '\n' ∉ m.inflected_morph.data :=
    fun m hm =>
      ⟨(hms m ((sortMorphsDesc_perm card_morphs).mem_iff.mp hm)).1,
        (hms m ((sortMorphsDesc_perm card_morphs).mem_iff.mp hm)).2.1⟩
  obtain ⟨ps', hwr, hne', _, hmem'⟩ :=
    hl_fold_wrapped am_config morph_cache (sortMorphsDesc card_morphs) [] t r hms'
      (fun p hp => absurd hp (List.not_mem_nil p))
      (Wrapped.plain t ht (NoOcc_nil t)) h
  have hlookups := hl_fold_lookups am_config morph_cache (sortMorphsDesc card_morphs)
    t r h
  exact hl_fold_id am_config morph_cache (sortMorphsDesc card_morphs) ps' r
    (fun m hm => ⟨hlookups m hm, (hms' m hm).1, hmem' m hm⟩) hwr

/-- Fixture for the C6 witness. -/
def c6wms : List MorphEntry := [⟨"abab", "ab"⟩]

def c6wmc : String → Option Nat := fun k => if k = "abab" then some 0 else none

def c6wr : List Char := "x<span morph-status=\"unknown\">ab</span>y".data

/-- Witness instantiating `c6_amended`: highlighting "xaby" once wraps "ab";
highlighting the result again returns it unchanged. -/
theorem c6_amended_witness :
    highlight_text c6cfg c6wms c6wmc ("xaby".data) = some c6wr ∧
    highlight_text c6cfg c6wms c6wmc c6wr = some c6wr := by
  have h : highlight_text c6cfg c6wms c6wmc ("xaby".data) = some c6wr := by decide
  exact ⟨h, c6_amended c6cfg c6wms c6wmc ("xaby".data) c6wr (by decide) (by decide) h⟩

/-! ## Claim C7: highlighting non-interference -/

/-- Fixture for C7's counterexample: morph "L" with surface form "a\nc"
(interval 0, unknown) and morph "S" with surface form "c" (interval 30,
known), a strict substring of the longer form. -/
def c7xcfg : AmConfig := ⟨false, true, 21, "k", "r", "n"⟩

def c7xmc : String → Option Nat :=
  fun k => if k = "L" then some 0 else if k = "S" then some 30 else none

/-- Claim C7 is false as stated: a longer surface form with a literal
newline in it ("a\nc" — a newline is not a regex metacharacter, so the
code's interpolated `re.sub` matches it exactly like this model) is wrapped
into a span whose body the splitter can never re-capture (`.` in
`<span.*?</span>` does not match a newline), so the shorter substring morph
"c" is substituted inside it.  First conjunct: with only the longer morph,
its occurrence is covered by one span, whose extent ends in `"c</span>"`.
Second conjunct: with the shorter morph also on the card, the final output
wraps "c" in its own span exactly there — inside the span that already
covered the longer morpheme's occurrence. -/
theorem c7_counterexample :
    highlight_text c7xcfg [⟨"L", "a\nc"⟩] c7xmc ("za\nc".data) =
      some (("z".data ++ attrPre ++ "unknown".data ++ attrPost ++ "a\n".data) ++
        "c".data ++ spanClose) ∧
    ("z".data ++ attrPre ++ "unknown".data ++ attrPost ++ "a\n".data) ++
        "c".data ++ spanClose =
      "z".data ++ mkUnit ("unknown".data) ("a\nc".data) ∧
    highlight_text c7xcfg [⟨"L", "a\nc"⟩, ⟨"S", "c"⟩] c7xmc ("za\nc".data) =
      some (("z".data ++ attrPre ++ "unknown".data ++ attrPost ++ "a\n".data) ++
        mkUnit ("known".data) ("c".data) ++ spanClose) ∧
    ("c".data : List Char).length < ("a\nc".data : List Char).length ∧
    "a\nc".data = "a\n".data ++ "c".data := by decide

/-- Claim C7 (amended): for surface forms that are nonempty, newline-free
and free of regex metacharacters (`regexSpecials`, the fragment where the
model's literal matching agrees with the code's interpolated `re.sub`), on
text with no `<`, non-interference holds: `highlight_text` substitutes
longest surface forms first (the sorted list is pairwise
length-descending), and in the result every piece the splitter recognizes
as a span — in particular the span wrapped around a longer morpheme's
occurrence — is a single replacement unit whose interior contains no `<`,
hence no independently wrapped shorter morpheme inside it. -/
theorem c7_non_interference (am_config : AmConfig) (card_morphs : List MorphEntry)
    (morph_cache : String → Option Nat) (t r : List Char)
    (hms : ∀ m ∈ card_morphs, m.inflected_morph.data ≠ [] ∧
      '\n' ∉ m.inflected_morph.data ∧
      ∀ c ∈ m.inflected_morph.data, c ∉ regexSpecials)
    (ht : '<' ∉ t)
    (h : highlight_text am_config card_morphs morph_cache t = some r) :
    List.Pairwise (fun a b => b.inflected_morph.length ≤ a.inflected_morph.length)
      (sortMorphsDesc card_morphs) ∧
    ∀ piece ∈ splitSpans r, litPre spanOpen piece = true →
      ∃ status o, piece = mkUnit status o ∧ ∀ x y, o ≠ x ++ spanOpen ++ y := by
  rw [highlight_text] at h
  have hms' : ∀ m ∈ sortMorphsDesc card_morphs,
      m.inflected_morph.data ≠ [] ∧ '\n' ∉ m.inflected_morph.data :=
    fun m hm =>
      ⟨(hms m ((sortMorphsDesc_perm card_morphs).mem_iff.mp hm)).1,
        (hms m ((sortMorphsDesc_perm card_morphs).mem_iff.mp hm)).2.1⟩
  obtain ⟨ps', hwr, _, _, _⟩ :=
    hl_fold_wrapped am_config morph_cache (sortMorphsDesc card_morphs) [] t r hms'
      (fun p hp => absurd hp (List.not_mem_nil p))
      (Wrapped.plain t ht (NoOcc_nil t)) h
  refine ⟨sortMorphsDesc_pairwise card_morphs, ?_⟩
  intro piece hp hlit
  obtain ⟨status, o, rfl, ho⟩ := Wrapped_pieces hwr piece hp hlit
  refine ⟨status, o, rfl, fun x y hxy => ?_⟩
  apply ho
  rw [hxy, spanOpen_eq]
  simp

/-- Witness instantiating `c7_non_interference`: the card has morphs "ab"
(longer) and "b" (shorter, a substring); in the output of highlighting
"zab", "b" is not wrapped inside the span that covers "ab". -/
theorem c7_non_interference_witness :
    List.Pairwise (fun a b => b.inflected_morph.length ≤ a.inflected_morph.length)
      (sortMorphsDesc [⟨"abab", "ab"⟩, ⟨"bb", "b"⟩]) ∧
    ∀ piece ∈ splitSpans ("z<span morph-status=\"unknown\">ab</span>".data),
      litPre spanOpen piece = true →
      ∃ status o, piece = mkUnit status o ∧ ∀ x y, o ≠ x ++ spanOpen ++ y := by
  have hmc : highlight_text c6cfg [⟨"abab", "ab"⟩, ⟨"bb", "b"⟩]
      (fun k => if k = "abab" then some 0 else if k = "bb" then some 30 else none)
      ("zab".data) =
      some ("z<span morph-status=\"unknown\">ab</span>".data) := by decide
  exact c7_non_interference c6cfg [⟨"abab", "ab"⟩, ⟨"bb", "b"⟩]
    (fun k => if k = "abab" then some 0 else if k = "bb" then some 30 else none)
    ("zab".data) ("z<span morph-status=\"unknown\">ab</span>".data)
    (by decide) (by decide) hmc

end AnkiMorphs
